import Mathlib

/-!
Verification development for `language_model_lab/src/Prepare_dataset.py`
("The Adaptive, Embedding-Aware Data Curation & Enrichment Pipeline").

Texts are modelled as `List Char` (Unicode code points), Python floats as
rationals (`ℚ`), fallible optional components as `Except Unit` oracles, and
`None`-returning functions as `Option`-valued functions.  Parts of the
pipeline that the source file explicitly abstracts away behind placeholder
comments (the deduplication/augmentation block of `curate_pipeline`, the
seeded train/validation/test split of `main`) are modelled from the
specification; each such definition carries a doc comment starting with
`Modelled from the spec:`.
-/

/-! ### Configuration constants (source lines 70–79) -/

def MIN_WORD_COUNT : Nat := 5

def MAX_WORD_COUNT : Nat := 150

def DEDUPLICATION_THRESHOLD : ℚ := 88 / 100

def TEST_SIZE : ℚ := 5 / 100

def VALIDATION_SIZE : ℚ := 10 / 100

def AUGMENTATION_RATIO : ℚ := 12 / 100

def EMBEDDING_AUGMENT_SIM_THRESHOLD : ℚ := 75 / 100

def SEED : Nat := 42

/-! ### Python string model -/

/-- The set of characters Python's `str.isspace`, `str.split()`, `str.strip()`
and the regex class `\s` (in unicode mode) treat as whitespace. -/
def isPySpace (c : Char) : Bool :=
  let n := c.toNat
  (9 ≤ n && n ≤ 13) || (28 ≤ n && n ≤ 32) || n = 133 || n = 160 || n = 5760 ||
    (8192 ≤ n && n ≤ 8202) || n = 8232 || n = 8233 || n = 8239 || n = 8287 || n = 12288

/-- Number of words of `len(text.split())`: the number of maximal runs of
non-whitespace characters.  The boolean argument records whether the previous
character was part of a word. -/
def pyWordCountAux : Bool → List Char → Nat
  | _, [] => 0
  | prevInWord, c :: cs =>
    if isPySpace c then pyWordCountAux false cs
    else (if prevInWord then 0 else 1) + pyWordCountAux true cs

/-- `len(text.split())` for a Python string. -/
def pyWordCount (l : List Char) : Nat := pyWordCountAux false l

/-- Python `str.strip()`: drop leading and trailing whitespace. -/
def pyStrip (l : List Char) : List Char :=
  ((l.dropWhile isPySpace).reverse.dropWhile isPySpace).reverse

/-! ### `jaccard_similarity_sets` (source lines 99–103) -/

/-- `jaccard_similarity_sets(a, b)`: `0.0` if either set is falsy (empty),
otherwise `len(a & b) / len(a | b)` guarded by the `if union else 0.0` check. -/
def jaccard_similarity_sets {α : Type} [DecidableEq α] (a b : Finset α) : ℚ :=
  if a = ∅ ∨ b = ∅ then 0
  else
    let inter := (a ∩ b).card
    let union := (a ∪ b).card
    if union ≠ 0 then (inter : ℚ) / (union : ℚ) else 0

/-! ### `text_complexity` (source lines 112–118) -/

/-- `text_complexity(text)`: `0.0` for zero words, else
`max(0.0, 4.71 * (char_count / word_count) + 0.5 * word_count - 21.43)`
where `char_count = len(text.replace(' ', ''))`. -/
def text_complexity (l : List Char) : ℚ :=
  let word_count := pyWordCount l
  if word_count = 0 then 0
  else
    let char_count := (l.filter (fun c => c ≠ ' ')).length
    max 0 (471 / 100 * ((char_count : ℚ) / (word_count : ℚ)) +
      1 / 2 * (word_count : ℚ) - 2143 / 100)

/-- The formula claimed for `text_complexity` by the specification:
`max(0, 4.71 * (non-space character count / word count) + 0.5 * word count - 21.43)`,
with `0.0` at zero words (avoiding the division). -/
def text_complexity_claimed (l : List Char) : ℚ :=
  let wc := pyWordCount l
  if wc = 0 then 0
  else
    max 0 (471 / 100 * (((l.filter (fun c => c ≠ ' ')).length : ℚ) / (wc : ℚ)) +
      1 / 2 * (wc : ℚ) - 2143 / 100)

/-! ### `normalize_arabic` (source lines 87–97) -/

/-- The Arabic diacritics range `[ً-ْ]` removed by the first
substitution. -/
def isDiacritic (c : Char) : Bool := 0x64B ≤ c.toNat && c.toNat ≤ 0x652

/-- The alef-variant class `[إأآا]` of the second substitution. -/
def isAlefVariant (c : Char) : Bool := c == 'إ' || c == 'أ' || c == 'آ' || c == 'ا'

/-- `re.sub(r'[إأآا]', 'ا', ·)` as a character map. -/
def mapAlef (c : Char) : Char := if isAlefVariant c then 'ا' else c

/-- `re.sub(r'ى', 'ي', ·)` as a character map. -/
def mapYa (c : Char) : Char := if c = 'ى' then 'ي' else c

/-- `re.sub(r'ؤ', 'و', ·)` as a character map. -/
def mapWaw (c : Char) : Char := if c = 'ؤ' then 'و' else c

/-- `re.sub(r'ئ', 'ي', ·)` as a character map. -/
def mapHamzaYa (c : Char) : Char := if c = 'ئ' then 'ي' else c

/-- `re.sub(r'ة', 'ه', ·)` as a character map. -/
def mapTa (c : Char) : Char := if c = 'ة' then 'ه' else c

/-- The general-punctuation ranges `[ -⁯⸀-⹿]` collapsed to
a single space by the seventh substitution. -/
def isPunctBlock (c : Char) : Bool :=
  (0x2000 ≤ c.toNat && c.toNat ≤ 0x206F) || (0x2E00 ≤ c.toNat && c.toNat ≤ 0x2E7F)

/-- `re.sub(r'[C]+', rep, ·)`: replace every maximal run of characters
satisfying `p` by the single character `rep`.  The boolean argument records
whether we are inside a run whose replacement was already emitted. -/
def collapseAux (p : Char → Bool) (rep : Char) : Bool → List Char → List Char
  | _, [] => []
  | inRun, c :: cs =>
    if p c then
      if inRun then collapseAux p rep true cs
      else rep :: collapseAux p rep true cs
    else c :: collapseAux p rep false cs

/-- Replace maximal runs of `p`-characters by one `rep`. -/
def replaceRuns (p : Char → Bool) (rep : Char) (l : List Char) : List Char :=
  collapseAux p rep false l

/-- The five character-level substitutions of `normalize_arabic` after the
diacritics filter (source lines 89–94). -/
def lexStage (l : List Char) : List Char :=
  (((((l.filter (fun c => !isDiacritic c)).map mapAlef).map mapYa).map
    mapWaw).map mapHamzaYa).map mapTa

/-- The whitespace-normalization tail of `normalize_arabic`: punctuation
blocks to a space, whitespace runs to a single space, then `strip()`
(source lines 95–96). -/
def spaceStage (l : List Char) : List Char :=
  pyStrip (replaceRuns isPySpace ' ' (replaceRuns isPunctBlock ' ' l))

/-- `normalize_arabic(text)` (source lines 87–97), including the
`if not text: return ""` guard. -/
def normalize_arabic (l : List Char) : List Char :=
  if l = [] then [] else spaceStage (lexStage l)

/-- A character is lexically normal when it is none of the characters the
filter and the five substitutions of `normalize_arabic` rewrite. -/
def lexOk (c : Char) : Bool :=
  !isDiacritic c && c != 'إ' && c != 'أ' && c != 'آ' && c != 'ى' && c != 'ؤ' &&
    c != 'ئ' && c != 'ة'

/-- A character is normal when additionally it is not in the collapsed
punctuation blocks and is a plain space if whitespace at all. -/
def normChar (c : Char) : Bool :=
  lexOk c && !isPunctBlock c && (!isPySpace c || c == ' ')

/-- No two adjacent whitespace characters. -/
def NoTwoSpaces (l : List Char) : Prop :=
  List.Chain' (fun a b => ¬(isPySpace a = true ∧ isPySpace b = true)) l

/-- Fixed points of `normalize_arabic`: all characters normal, whitespace
runs collapsed, and no leading or trailing whitespace. -/
def isNormalized (l : List Char) : Prop :=
  (∀ c ∈ l, normChar c = true) ∧ NoTwoSpaces l ∧
    (∀ c, l.head? = some c → isPySpace c = false) ∧
    (∀ c, l.getLast? = some c → isPySpace c = false)

/-! ### Data model

A raw entry is a `{text, source}` dict; a curated record carries the metadata
fields written by `curate_pipeline`'s final loop (source lines 228–232). -/

structure RawRecord where
  text : List Char
  source : String
deriving DecidableEq, Repr

structure Record where
  text : List Char
  source : String
  is_augmented : Bool
  word_count : Nat := 0
  complexity : ℚ := 0
  perplexity : Option ℚ := none
  quality_score : ℚ := 0
deriving DecidableEq, Repr

/-- An optional learned scorer (the causal LM of `OPTIONALS.lm_model` or the
embedding similarity model), modelled as an opaque deterministic oracle that
may raise (`Except.error`).  The specification treats these models as
"opaque scoring/encoding oracles". -/
abbrev Scorer := List Char → Except Unit ℚ

/-! ### `lm_perplexity_score` (source lines 186–197) -/

/-- `lm_perplexity_score(text)`: `None` when the LM component is not loaded;
otherwise the scorer's value, with any raised exception caught and turned
into `None`.  The oracle value stands for `math.exp(outputs.loss.item())`. -/
def lm_perplexity_score (lm : Option Scorer) (text : List Char) : Option ℚ :=
  match lm with
  | none => none
  | some scorer =>
    match scorer text with
    | .error _ => none
    | .ok v => some v

/-! ### `compute_quality_score` (source lines 199–201) -/

/-- `compute_quality_score(text, complexity, perplexity)`: the source body is
the placeholder `return 0.5`. -/
def compute_quality_score (_text : List Char) (_complexity : ℚ)
    (_perplexity : Option ℚ) : ℚ := 1 / 2

/-! ### `embedding_based_augment` (source lines 172–184) -/

/-- Sequence a fallible oracle over a list, propagating the first exception
(the whole batch `model.encode(pool_texts)` call fails together). -/
def mapExcept (f : List Char → Except Unit ℚ) :
    List (List Char) → Except Unit (List ℚ)
  | [] => .ok []
  | a :: as =>
    match f a, mapExcept f as with
    | .error e, _ => .error e
    | .ok _, .error e => .error e
    | .ok b, .ok bs => .ok (b :: bs)

/-- `np.argmax` over a list of (text, similarity) pairs: the pair of the
first maximal similarity, `none` on the empty list (where `np.argmax`
raises). -/
def pickFirstMax : List (List Char × ℚ) → Option (List Char × ℚ)
  | [] => none
  | p :: ps =>
    match pickFirstMax ps with
    | none => some p
    | some q => if q.2 > p.2 then some q else some p

/-- `embedding_based_augment(text, pool_texts, model)`: `None` when the
embedding component is unavailable; otherwise find the pool text of maximal
similarity to `text` and return it iff its similarity is
`≥ EMBEDDING_AUGMENT_SIM_THRESHOLD` and it differs from `text`; any raised
exception (encoding failure, `np.argmax` on an empty pool) yields `None`.
The oracle `sim text u` stands for the fudged cosine
`np.dot(emb u, emb text) / (norm * norm + 1e-9)`. -/
def embedding_based_augment (avail : Bool) (sim : List Char → Scorer)
    (text : List Char) (pool : List (List Char)) : Option (List Char) :=
  if avail then
    match mapExcept (sim text) pool with
    | .error _ => none
    | .ok sims =>
      match pickFirstMax (pool.zip sims) with
      | none => none
      | some best =>
        if EMBEDDING_AUGMENT_SIM_THRESHOLD ≤ best.2 ∧ best.1 ≠ text then
          some best.1
        else none
  else none

/-! ### Deduplication and augmentation stages

The body of `curate_pipeline` abstracts these behind the placeholder comment
"For brevity, the full deduplication and augmentation logic is abstracted"
(source lines 221–225); they are modelled from the specification. -/

/-- Modelled from the spec: shingle sets for similarity comparison —
"tokenize into overlapping n-gram shingles" (§4.1); the set of contiguous
character `n`-grams of the text. -/
def shingles (n : Nat) (l : List Char) : Finset (List Char) :=
  ((List.range (l.length + 1 - n)).map (fun i => (l.drop i).take n)).toFinset

/-- Modelled from the spec: the greedy deduplication stage (§4.3) over the
exact similarity backend (§4.2, "query_candidates returns every previously
inserted id").  Records are processed in input order; a record is dropped iff
some already-accepted record's confirmed Jaccard similarity on shingle sets
is `≥ DEDUPLICATION_THRESHOLD`, otherwise accepted.  `acc` is the list of
already-accepted records in order. -/
def dedupAux (sh : List Char → Finset (List Char)) :
    List Record → List Record → List Record
  | acc, [] => acc
  | acc, r :: rs =>
    if acc.any (fun a =>
        decide (DEDUPLICATION_THRESHOLD ≤
          jaccard_similarity_sets (sh a.text) (sh r.text))) then
      dedupAux sh acc rs
    else dedupAux sh (acc ++ [r]) rs

/-- Modelled from the spec: deduplicate a record list (§4.3). -/
def dedup (sh : List Char → Finset (List Char)) (rs : List Record) :
    List Record :=
  dedupAux sh [] rs

/-- Modelled from the spec: the candidate pool for augmenting a record —
"a candidate pool (e.g., other records from the same source)" (§4.5). -/
def augmentPool (r : Record) (records : List Record) : List (List Char) :=
  (records.filter (fun x => decide (x.source = r.source))).map (fun x => x.text)

/-- Modelled from the spec: the number of records selected for augmentation,
bounded by the target ratio (§4.5). -/
def numAugment (n : Nat) : Nat := ( AUGMENTATION_RATIO * (n : ℚ)).floor.toNat

/-- Modelled from the spec: the augmentation stage (§4.5) — deterministically
select a prefix of the deduplicated corpus of size bounded by
` AUGMENTATION_RATIO`, attempt one embedding-based augmentation per selected
record against its same-source pool, and append the accepted neighbours
tagged `is_augmented = true`. -/
def augment_stage (avail : Bool) (sim : List Char → Scorer)
    (records : List Record) : List Record :=
  let selected := records.take (numAugment records.length)
  records ++ selected.filterMap (fun r =>
    (embedding_based_augment avail sim r.text (augmentPool r records)).map
      (fun t => { r with text := t, is_augmented := true }))

/-! ### `curate_pipeline` (source lines 205–234) -/

/-- Set the metadata fields written by the final loop of `curate_pipeline`
(source lines 228–232). -/
def addMetadata (lm : Option Scorer) (r : Record) : Record :=
  let wc := pyWordCount r.text
  let comp := text_complexity r.text
  let perp := lm_perplexity_score lm r.text
  { r with
    word_count := wc
    complexity := comp
    perplexity := perp
    quality_score := compute_quality_score r.text comp perp }

/-- The enrichment-and-length-filter head of `curate_pipeline` (source lines
210–218): keep raw entries with truthy `text.strip()`, normalize, and keep
texts whose word count lies in `[MIN_WORD_COUNT, MAX_WORD_COUNT]`. -/
def enrichFilter (raw : List RawRecord) : List Record :=
  let enriched := (raw.filter (fun e => !(pyStrip e.text).isEmpty)).map
    (fun e => { text := normalize_arabic e.text, source := e.source,
                is_augmented := false : Record })
  enriched.filter (fun e =>
    decide (MIN_WORD_COUNT ≤ pyWordCount e.text ∧
      pyWordCount e.text ≤ MAX_WORD_COUNT))

/-- `curate_pipeline(raw_data)` (source lines 205–234).  The enrichment
filter and the metadata loop are literal; the middle block is modelled from
the spec: greedy dedup (§4.3), then augmentation (§4.5), then — following the
spec's recommended policy for the open question of §9 ("re-run dedup after
augmentation") — deduplication of the augmented list. -/
def curate_pipeline (lm : Option Scorer) (embedAvail : Bool)
    (sim : List Char → Scorer) (sh : List Char → Finset (List Char))
    (raw : List RawRecord) : List Record :=
  let filtered := enrichFilter raw
  let deduped := dedup sh filtered
  let augmented := dedup sh (augment_stage embedAvail sim deduped)
  augmented.map (addMetadata lm)

/-- `curate_pipeline` with the augmentation stage removed entirely (the
comparison point for the augmentation-disabled no-op property). -/
def curate_pipeline_noaug (lm : Option Scorer)
    (sh : List Char → Finset (List Char)) (raw : List RawRecord) :
    List Record :=
  let filtered := enrichFilter raw
  let deduped := dedup sh filtered
  deduped.map (addMetadata lm)

/-! ### `main` (source lines 240–273) -/

/-- Modelled from the spec: the seeded deterministic shuffle of the external
partitioning collaborator (§3: "membership assignment is a function of a
seeded deterministic shuffle").  The spec fixes no algorithm, only that the
permutation is a deterministic function of the seed, so a seed-indexed
rotation is used. -/
def seededShuffle {α : Type} (seed : Nat) (l : List α) : List α :=
  l.rotateLeft (seed % (l.length + 1))

/-- Modelled from the spec: the train/validation/test partitioning of `main`
(source lines 257–263): a seeded split taking `TEST_SIZE` off for test, then
`VALIDATION_SIZE / (1 - TEST_SIZE)` of the remainder for validation, both
with `seed = SEED`. -/
def split_dataset (seed : Nat) (l : List Record) :
    List Record × List Record × List Record :=
  let shuffled := seededShuffle seed l
  let nTest := (TEST_SIZE * (shuffled.length : ℚ)).floor.toNat
  let testPart := shuffled.take nTest
  let rest := shuffled.drop nTest
  let shuffled2 := seededShuffle seed rest
  let nValid := ((VALIDATION_SIZE / (1 - TEST_SIZE)) *
    (shuffled2.length : ℚ)).floor.toNat
  (shuffled2.drop nValid, shuffled2.take nValid, testPart)

/-- Outcome of a `main` run: either an abort diagnostic or the three splits
with their tokenized forms; both carry the process exit status. -/
inductive MainOutcome where
  | aborted (diag : String) (exitStatus : Nat)
  | finished (train valid test : List Record)
      (tokTrain tokValid tokTest : List (List Nat)) (exitStatus : Nat)
deriving DecidableEq, Repr

/-- The process exit status of an outcome. -/
def MainOutcome.exitStatus : MainOutcome → Nat
  | .aborted _ s => s
  | .finished _ _ _ _ _ _ s => s

/-- Tokenize a split: `tokenizer(ex['text'], truncation=True, max_length=512)`
mapped over the records (source lines 266–270).  `cpuCount` is the
`num_proc=os.cpu_count()` argument; it controls only parallel scheduling, so
the content does not depend on it. -/
def tokenizeSplit (tok : List Char → List Nat) (_cpuCount : Nat)
    (l : List Record) : List (List Nat) :=
  l.map (fun r => (tok r.text).take 512)

/-- `main(args)` (source lines 240–273): abort (plain `return`, hence exit
status `0`) with the logged diagnostic when the raw data or the curated data
is empty; otherwise split, tokenize and finish (exit status `0`). -/
def runMain (lm : Option Scorer) (embedAvail : Bool)
    (sim : List Char → Scorer) (sh : List Char → Finset (List Char))
    (tok : List Char → List Nat) (seed : Nat) (cpuCount : Nat)
    (raw : List RawRecord) : MainOutcome :=
  if raw = [] then .aborted "No data found. Aborting." 0
  else
    let curated := curate_pipeline lm embedAvail sim sh raw
    if curated = [] then .aborted "No data left after curation. Aborting." 0
    else
      let parts := split_dataset seed curated
      .finished parts.1 parts.2.1 parts.2.2
        (tokenizeSplit tok cpuCount parts.1)
        (tokenizeSplit tok cpuCount parts.2.1)
        (tokenizeSplit tok cpuCount parts.2.2) 0

/-! ### Concrete component instances used by witnesses -/

/-- A trivially available similarity oracle: every pair scores `0`. -/
def simConst : List Char → Scorer := fun _ _ => Except.ok 0

/-- A concrete tokenizer oracle: code points of the text. -/
def tokNat : List Char → List Nat := fun l => l.map Char.toNat

/-- A concrete similarity oracle giving the pool text `"x"` similarity `1`
and everything else `0`. -/
def simPick : List Char → Scorer :=
  fun _ u => if u = "x".data then Except.ok 1 else Except.ok 0

/-- A concrete raw record whose normalized text passes the length filter. -/
def rawFive : RawRecord := ⟨"a b c d e".data, "s"⟩

/-- The curated record produced from `rawFive` by a run with no optional
components. -/
def recFive : Record :=
  { text := "a b c d e".data, source := "s", is_augmented := false,
    word_count := 5, complexity := 0, perplexity := none,
    quality_score := 1 / 2 }

/-! ## Helper lemmas -/

theorem pickFirstMax_mem : ∀ (l : List (List Char × ℚ)) (p),
    pickFirstMax l = some p → p ∈ l := by
  intro l
  induction l with
  | nil => intro p h; simp [pickFirstMax] at h
  | cons q l ih =>
    intro p h
    simp only [pickFirstMax] at h
    cases hrec : pickFirstMax l with
    | none =>
      simp only [hrec] at h
      cases h
      exact List.mem_cons_self q l
    | some q' =>
      simp only [hrec] at h
      split_ifs at h
      · cases h; exact List.mem_cons_of_mem _ (ih _ hrec)
      · cases h; exact List.mem_cons_self q l

theorem mapExcept_ok_zip (f : List Char → Except Unit ℚ) :
    ∀ (l : List (List Char)) (ys : List ℚ), mapExcept f l = .ok ys →
      ∀ a b, (a, b) ∈ l.zip ys → f a = .ok b := by
  intro l
  induction l with
  | nil => intro ys _ a b hab; simp at hab
  | cons x xs ih =>
    intro ys hok a b hab
    simp only [mapExcept] at hok
    cases hfx : f x with
    | error e => rw [hfx] at hok; cases hok
    | ok v =>
      rw [hfx] at hok
      cases hrec : mapExcept f xs with
      | error e => rw [hrec] at hok; cases hok
      | ok vs =>
        rw [hrec] at hok
        cases hok
        rcases List.mem_cons.mp hab with h | h
        · cases h; exact hfx
        · exact ih vs hrec a b h

theorem jaccard_comm {α : Type} [DecidableEq α] (a b : Finset α) :
    jaccard_similarity_sets a b = jaccard_similarity_sets b a := by
  simp only [jaccard_similarity_sets, Finset.inter_comm, Finset.union_comm, or_comm]

theorem jaccard_self {α : Type} [DecidableEq α] (a : Finset α) (h : a ≠ ∅) :
    jaccard_similarity_sets a a = 1 := by
  simp only [jaccard_similarity_sets, Finset.inter_self, Finset.union_self]
  rw [if_neg (by simp [h])]
  have hc : a.card ≠ 0 := by
    simpa [Finset.card_eq_zero] using h
  rw [if_pos (by exact_mod_cast hc)]
  exact div_self (by exact_mod_cast hc)

theorem embedding_based_augment_mem (avail : Bool) (sim : List Char → Scorer)
    (text : List Char) (pool : List (List Char)) (t : List Char)
    (h : embedding_based_augment avail sim text pool = some t) : t ∈ pool := by
  unfold embedding_based_augment at h
  cases avail with
  | false => simp at h
  | true =>
    rw [if_pos rfl] at h
    cases hm : mapExcept (sim text) pool with
    | error e => simp [hm] at h
    | ok sims =>
      simp only [hm] at h
      cases hp : pickFirstMax (pool.zip sims) with
      | none => simp [hp] at h
      | some best =>
        simp only [hp] at h
        split_ifs at h
        cases h
        exact (List.of_mem_zip (pickFirstMax_mem _ _ hp)).1

/-- The deduplication relation: confirmed shingle-set Jaccard similarity
strictly below the threshold. -/
def BelowThreshold (sh : List Char → Finset (List Char)) (a b : Record) :
    Prop :=
  jaccard_similarity_sets (sh a.text) (sh b.text) < DEDUPLICATION_THRESHOLD

theorem dedupAux_pairwise (sh : List Char → Finset (List Char)) :
    ∀ (rs acc : List Record), List.Pairwise (BelowThreshold sh) acc →
      List.Pairwise (BelowThreshold sh) (dedupAux sh acc rs) := by
  intro rs
  induction rs with
  | nil => intro acc h; exact h
  | cons r rs ih =>
    intro acc hacc
    simp only [dedupAux]
    by_cases hany : acc.any (fun a =>
        decide (DEDUPLICATION_THRESHOLD ≤
          jaccard_similarity_sets (sh a.text) (sh r.text))) = true
    · rw [if_pos hany]; exact ih acc hacc
    · rw [if_neg hany]
      refine ih (acc ++ [r]) ?_
      rw [List.pairwise_append]
      refine ⟨hacc, List.pairwise_singleton _ _, ?_⟩
      intro a ha b hb
      rcases List.mem_singleton.mp hb with rfl
      rw [Bool.not_eq_true] at hany
      have hlt := List.any_eq_false.mp hany a ha
      simp only [decide_eq_true_eq] at hlt
      exact lt_of_not_le hlt

theorem dedup_pairwise (sh : List Char → Finset (List Char))
    (rs : List Record) :
    List.Pairwise (BelowThreshold sh) (dedup sh rs) :=
  dedupAux_pairwise sh rs [] (List.Pairwise.nil)

theorem dedupAux_of_pairwise (sh : List Char → Finset (List Char)) :
    ∀ (rs acc : List Record), List.Pairwise (BelowThreshold sh) rs →
      (∀ a ∈ acc, ∀ b ∈ rs, BelowThreshold sh a b) →
      dedupAux sh acc rs = acc ++ rs := by
  intro rs
  induction rs with
  | nil => intro acc _ _; simp [dedupAux]
  | cons r rs ih =>
    intro acc hrs hcross
    have hr := List.pairwise_cons.mp hrs
    have hany : acc.any (fun a =>
        decide (DEDUPLICATION_THRESHOLD ≤
          jaccard_similarity_sets (sh a.text) (sh r.text))) = false := by
      rw [List.any_eq_false]
      intro a ha
      simp only [decide_eq_true_eq, not_le]
      exact hcross a ha r (List.mem_cons_self _ _)
    simp only [dedupAux, hany, Bool.false_eq_true, if_false]
    rw [ih (acc ++ [r]) hr.2]
    · simp
    · intro a ha b hb
      rcases List.mem_append.mp ha with h | h
      · exact hcross a h b (List.mem_cons_of_mem _ hb)
      · rcases List.mem_singleton.mp h with rfl
        exact hr.1 b hb

theorem dedup_idem (sh : List Char → Finset (List Char)) (rs : List Record) :
    dedup sh (dedup sh rs) = dedup sh rs := by
  have := dedupAux_of_pairwise sh (dedup sh rs) [] (dedup_pairwise sh rs)
    (by intro a ha; simp at ha)
  simpa [dedup] using this

theorem augment_stage_unavail (sim : List Char → Scorer) (l : List Record) :
    augment_stage false sim l = l := by
  unfold augment_stage
  simp [embedding_based_augment]

theorem mem_dedupAux (sh : List Char → Finset (List Char)) :
    ∀ (rs acc : List Record) (x : Record), x ∈ dedupAux sh acc rs →
      x ∈ acc ∨ x ∈ rs := by
  intro rs
  induction rs with
  | nil => intro acc x h; exact Or.inl h
  | cons r rs ih =>
    intro acc x h
    simp only [dedupAux] at h
    by_cases hany : acc.any (fun a =>
        decide (DEDUPLICATION_THRESHOLD ≤
          jaccard_similarity_sets (sh a.text) (sh r.text))) = true
    · rw [if_pos hany] at h
      rcases ih acc x h with h' | h'
      · exact Or.inl h'
      · exact Or.inr (List.mem_cons_of_mem _ h')
    · rw [if_neg hany] at h
      rcases ih (acc ++ [r]) x h with h' | h'
      · rcases List.mem_append.mp h' with h'' | h''
        · exact Or.inl h''
        · exact Or.inr (List.mem_singleton.mp h'' ▸ List.mem_cons_self _ _)
      · exact Or.inr (List.mem_cons_of_mem _ h')

theorem mem_dedup (sh : List Char → Finset (List Char)) (rs : List Record)
    (x : Record) (h : x ∈ dedup sh rs) : x ∈ rs := by
  rcases mem_dedupAux sh rs [] x h with h' | h'
  · simp at h'
  · exact h'

theorem augment_stage_text (avail : Bool) (sim : List Char → Scorer)
    (l : List Record) (x : Record) (h : x ∈ augment_stage avail sim l) :
    ∃ r ∈ l, x.text = r.text := by
  unfold augment_stage at h
  rcases List.mem_append.mp h with h' | h'
  · exact ⟨x, h', rfl⟩
  · rcases List.mem_filterMap.mp h' with ⟨r, hr, hmap⟩
    rcases Option.map_eq_some'.mp hmap with ⟨t, ht, rfl⟩
    have hp := embedding_based_augment_mem avail sim r.text (augmentPool r l) t ht
    unfold augmentPool at hp
    rcases List.mem_map.mp hp with ⟨r', hr', rfl⟩
    exact ⟨r', List.mem_of_mem_filter hr', rfl⟩

theorem mem_enrichFilter (raw : List RawRecord) (r : Record)
    (h : r ∈ enrichFilter raw) :
    MIN_WORD_COUNT ≤ pyWordCount r.text ∧ pyWordCount r.text ≤ MAX_WORD_COUNT := by
  unfold enrichFilter at h
  have := List.mem_filter.mp h
  exact of_decide_eq_true this.2

theorem pyWordCount_pos_ne_nil (l : List Char) (h : 0 < pyWordCount l) :
    l ≠ [] := by
  intro hnil
  subst hnil
  simp [pyWordCount, pyWordCountAux] at h

/-! ## Claims -/

/-- C10: `jaccard_similarity_sets` is total and safe: on every pair of finite
sets it returns a value in `[0, 1]`, and it returns exactly `0.0` whenever
either set is empty (no division by zero occurs: the denominator is guarded
and positive in the dividing branch). -/
theorem C10_jaccard_total_safe {α : Type} [DecidableEq α] (a b : Finset α) :
    0 ≤ jaccard_similarity_sets a b ∧ jaccard_similarity_sets a b ≤ 1 ∧
      ((a = ∅ ∨ b = ∅) → jaccard_similarity_sets a b = 0) := by
  unfold jaccard_similarity_sets
  by_cases h : a = ∅ ∨ b = ∅
  · rw [if_pos h]; exact ⟨le_refl 0, zero_le_one, fun _ => rfl⟩
  · rw [if_neg h]
    have hsub : a ∩ b ⊆ a ∪ b := (Finset.inter_subset_left).trans
      Finset.subset_union_left
    have hcard : (a ∩ b).card ≤ (a ∪ b).card := Finset.card_le_card hsub
    have hne : (a ∪ b).card ≠ 0 := by
      push_neg at h
      intro h0
      rcases Finset.card_eq_zero.mp h0 with h0
      exact h.1 (Finset.union_eq_empty.mp h0).1
    rw [if_pos (by exact_mod_cast hne)]
    have hpos : (0 : ℚ) < ((a ∪ b).card : ℚ) := by
      exact_mod_cast Nat.pos_of_ne_zero hne
    refine ⟨div_nonneg (by positivity) (le_of_lt hpos), ?_, fun hemp => absurd hemp h⟩
    rw [div_le_one hpos]
    exact_mod_cast hcard

/-- Witness for C10 at concrete sets. -/
theorem C10_witness :
    0 ≤ jaccard_similarity_sets ({1, 2} : Finset ℕ) {2, 3} ∧
      jaccard_similarity_sets ({1, 2} : Finset ℕ) {2, 3} ≤ 1 ∧
      jaccard_similarity_sets (∅ : Finset ℕ) {2, 3} = 0 :=
  ⟨(C10_jaccard_total_safe {1, 2} {2, 3}).1,
   (C10_jaccard_total_safe {1, 2} {2, 3}).2.1,
   (C10_jaccard_total_safe ∅ {2, 3}).2.2 (Or.inl rfl)⟩

/-- C5: `text_complexity` computes
`max(0, 4.71 * (non-space characters / word count) + 0.5 * word count - 21.43)`,
returns exactly `0.0` on a text with zero words (never dividing by zero), and
is always nonnegative. -/
theorem C5_text_complexity_formula (l : List Char) :
    text_complexity l = text_complexity_claimed l ∧
      (pyWordCount l = 0 → text_complexity l = 0) ∧
      0 ≤ text_complexity l := by
  refine ⟨rfl, fun h => by simp [text_complexity, h], ?_⟩
  unfold text_complexity
  by_cases h : pyWordCount l = 0
  · rw [if_pos h]
  · rw [if_neg h]
    exact le_max_left 0 _

/-- Witness for C5 at a zero-word text. -/
theorem C5_witness : text_complexity [' '] = 0 ∧ 0 ≤ text_complexity [' '] :=
  ⟨(C5_text_complexity_formula [' ']).2.1 (by decide),
   (C5_text_complexity_formula [' ']).2.2⟩

/-- C6: `embedding_based_augment` returns a candidate text only if it is a
pool neighbour whose (oracle) cosine similarity to the source text is
`≥ EMBEDDING_AUGMENT_SIM_THRESHOLD` and whose text differs from the source
text; being `Option`-valued, in every other case it returns `none`. -/
theorem C6_augment_accepts_only_similar (avail : Bool)
    (sim : List Char → Scorer) (text : List Char) (pool : List (List Char))
    (t : List Char) (h : embedding_based_augment avail sim text pool = some t) :
    t ∈ pool ∧ t ≠ text ∧
      ∃ v, sim text t = Except.ok v ∧ EMBEDDING_AUGMENT_SIM_THRESHOLD ≤ v := by
  have hmem := embedding_based_augment_mem avail sim text pool t h
  unfold embedding_based_augment at h
  cases avail with
  | false => simp at h
  | true =>
    rw [if_pos rfl] at h
    cases hm : mapExcept (sim text) pool with
    | error e => simp [hm] at h
    | ok sims =>
      simp only [hm] at h
      cases hp : pickFirstMax (pool.zip sims) with
      | none => simp [hp] at h
      | some best =>
        simp only [hp] at h
        split_ifs at h with hc
        cases h
        have hz := pickFirstMax_mem _ _ hp
        have := mapExcept_ok_zip (sim text) pool sims hm best.1 best.2 hz
        exact ⟨hmem, hc.2, best.2, this, hc.1⟩

/-- Witness for C6: a pool neighbour at similarity `1` is returned. -/
theorem C6_witness :
    "x".data ∈ ["x".data] ∧ "x".data ≠ "y".data ∧
      ∃ v, simPick "y".data "x".data = Except.ok v ∧
        EMBEDDING_AUGMENT_SIM_THRESHOLD ≤ v :=
  C6_augment_accepts_only_similar true simPick
    "y".data ["x".data] "x".data (by
      simp [embedding_based_augment, simPick, mapExcept, pickFirstMax,
        EMBEDDING_AUGMENT_SIM_THRESHOLD]
      norm_num)

/-- C7: when the embedding component is unavailable, augmentation is a
deterministic no-op: `embedding_based_augment` returns `none` for every input
(without raising), and the pipeline output is unchanged relative to a run
with the augmentation stage removed. -/
theorem C7_embedding_unavailable_noop :
    (∀ (sim : List Char → Scorer) (text : List Char) (pool : List (List Char)),
        embedding_based_augment false sim text pool = none) ∧
    (∀ (lm : Option Scorer) (sim : List Char → Scorer)
        (sh : List Char → Finset (List Char)) (raw : List RawRecord),
        curate_pipeline lm false sim sh raw = curate_pipeline_noaug lm sh raw) := by
  constructor
  · intro sim text pool; rfl
  · intro lm sim sh raw
    simp only [curate_pipeline, curate_pipeline_noaug]
    rw [augment_stage_unavail, dedup_idem]

/-- C3: an unavailable or failing perplexity scorer makes
`lm_perplexity_score` return `none` rather than raise; the pipeline then
emits exactly the records of a scorer-less run, each with `perplexity`
absent and a defined, nonnegative `quality_score` computed without the
fluency signal. -/
theorem C3_perplexity_soft_degradation :
    (∀ (lm : Option Scorer) (text : List Char),
        (lm = none ∨ ∃ f, lm = some f ∧ f text = Except.error ()) →
        lm_perplexity_score lm text = none) ∧
    (∀ (f : Scorer), (∀ t, f t = Except.error ()) →
      ∀ (embedAvail : Bool) (sim : List Char → Scorer)
        (sh : List Char → Finset (List Char)) (raw : List RawRecord),
        curate_pipeline (some f) embedAvail sim sh raw =
          curate_pipeline none embedAvail sim sh raw ∧
        ∀ r ∈ curate_pipeline (some f) embedAvail sim sh raw,
          r.perplexity = none ∧ 0 ≤ r.quality_score ∧
            r.quality_score = compute_quality_score r.text r.complexity none) := by
  constructor
  · rintro lm text (rfl | ⟨f, rfl, hf⟩)
    · rfl
    · simp [lm_perplexity_score, hf]
  · intro f hf embedAvail sim sh raw
    have hadd : addMetadata (some f) = addMetadata none := by
      funext r
      simp [addMetadata, lm_perplexity_score, hf]
    constructor
    · unfold curate_pipeline
      rw [hadd]
    · intro r hr
      unfold curate_pipeline at hr
      rcases List.mem_map.mp hr with ⟨r₀, _, rfl⟩
      refine ⟨?_, by norm_num [addMetadata, compute_quality_score], rfl⟩
      simp [addMetadata, lm_perplexity_score, hf]

/-- Witness for C3: a missing scorer and an always-raising scorer. -/
theorem C3_witness :
    lm_perplexity_score none "a b c d e".data = none ∧
    curate_pipeline (some (fun _ => Except.error ())) false simConst
        (shingles 3) [rawFive] =
      curate_pipeline none false simConst (shingles 3) [rawFive] :=
  ⟨C3_perplexity_soft_degradation.1 none _ (Or.inl rfl),
   (C3_perplexity_soft_degradation.2 (fun _ => Except.error ())
      (fun _ => rfl) false simConst (shingles 3) [rawFive]).1⟩

/-- C1: during deduplication a record is dropped exactly when some
already-accepted record's confirmed shingle-set Jaccard similarity reaches
`DEDUPLICATION_THRESHOLD` (inclusive), and accepted when all such
similarities are strictly below it; consequently the final output of
`curate_pipeline` contains no two records with confirmed similarity
`≥ DEDUPLICATION_THRESHOLD`. -/
theorem C1_dedup_threshold :
    (∀ (sh : List Char → Finset (List Char)) (acc : List Record) (r : Record)
        (rs : List Record),
        ((∃ a ∈ acc, DEDUPLICATION_THRESHOLD ≤
            jaccard_similarity_sets (sh a.text) (sh r.text)) →
          dedupAux sh acc (r :: rs) = dedupAux sh acc rs) ∧
        ((∀ a ∈ acc, jaccard_similarity_sets (sh a.text) (sh r.text) <
            DEDUPLICATION_THRESHOLD) →
          dedupAux sh acc (r :: rs) = dedupAux sh (acc ++ [r]) rs)) ∧
    (∀ (lm : Option Scorer) (embedAvail : Bool) (sim : List Char → Scorer)
        (sh : List Char → Finset (List Char)) (raw : List RawRecord),
        List.Pairwise (fun a b =>
          jaccard_similarity_sets (sh a.text) (sh b.text) <
            DEDUPLICATION_THRESHOLD)
          (curate_pipeline lm embedAvail sim sh raw)) := by
  constructor
  · intro sh acc r rs
    constructor
    · rintro ⟨a, ha, hsim⟩
      have hany : acc.any (fun a =>
          decide (DEDUPLICATION_THRESHOLD ≤
            jaccard_similarity_sets (sh a.text) (sh r.text))) = true :=
        List.any_eq_true.mpr ⟨a, ha, by simpa using hsim⟩
      simp only [dedupAux, hany, if_true]
    · intro hall
      have hany : acc.any (fun a =>
          decide (DEDUPLICATION_THRESHOLD ≤
            jaccard_similarity_sets (sh a.text) (sh r.text))) = false := by
        rw [List.any_eq_false]
        intro a ha
        simp only [decide_eq_true_eq, not_le]
        exact hall a ha
      simp only [dedupAux, hany, Bool.false_eq_true, if_false]
  · intro lm embedAvail sim sh raw
    unfold curate_pipeline
    rw [List.pairwise_map]
    exact dedup_pairwise sh _

/-- Witness for C1: an exact duplicate (self-similarity `1`) is dropped and a
record facing an empty accepted list is accepted. -/
theorem C1_witness :
    dedupAux (shingles 3) [recFive] (recFive :: []) =
      dedupAux (shingles 3) [recFive] [] ∧
    dedupAux (shingles 3) [] [recFive] = dedupAux (shingles 3) [recFive] [] :=
  ⟨(C1_dedup_threshold.1 (shingles 3) [recFive] recFive []).1
    ⟨recFive, List.mem_singleton_self _, by
      rw [jaccard_self _ (by decide)]
      norm_num [DEDUPLICATION_THRESHOLD]⟩,
   (C1_dedup_threshold.1 (shingles 3) [] recFive []).2
    (by intro a ha; simp at ha)⟩

/-- C2: every record emitted by `curate_pipeline` has non-empty text, a word
count within `[MIN_WORD_COUNT, MAX_WORD_COUNT]`, and a defined nonnegative
`quality_score`, whatever the availability of the optional scorers. -/
theorem C2_output_invariants (lm : Option Scorer) (embedAvail : Bool)
    (sim : List Char → Scorer) (sh : List Char → Finset (List Char))
    (raw : List RawRecord) (r : Record)
    (hr : r ∈ curate_pipeline lm embedAvail sim sh raw) :
    r.text ≠ [] ∧ MIN_WORD_COUNT ≤ r.word_count ∧
      r.word_count ≤ MAX_WORD_COUNT ∧ 0 ≤ r.quality_score := by
  unfold curate_pipeline at hr
  rcases List.mem_map.mp hr with ⟨r₁, hr₁, rfl⟩
  have hr₂ := mem_dedup sh _ _ hr₁
  rcases augment_stage_text _ _ _ _ hr₂ with ⟨r₃, hr₃, htext⟩
  have hr₄ := mem_dedup sh _ _ hr₃
  have hbounds := mem_enrichFilter raw r₃ hr₄
  have htext' : (addMetadata lm r₁).text = r₃.text := htext
  have hwc : (addMetadata lm r₁).word_count = pyWordCount r₃.text := by
    simp [addMetadata, htext]
  refine ⟨?_, ?_, ?_, ?_⟩
  · rw [htext']
    exact pyWordCount_pos_ne_nil _
      (lt_of_lt_of_le (by norm_num [MIN_WORD_COUNT]) hbounds.1)
  · rw [hwc]; exact hbounds.1
  · rw [hwc]; exact hbounds.2
  · norm_num [addMetadata, compute_quality_score]

/-- Witness for C2 on a concrete single-record run. -/
theorem C2_witness :
    recFive.text ≠ [] ∧ MIN_WORD_COUNT ≤ recFive.word_count ∧
      recFive.word_count ≤ MAX_WORD_COUNT ∧ 0 ≤ recFive.quality_score :=
  C2_output_invariants none false simConst (shingles 3) [rawFive] recFive (by
    have hev : curate_pipeline none false simConst (shingles 3) [rawFive] =
        [recFive] := by
      simp only [curate_pipeline]
      rw [augment_stage_unavail, dedup_idem]
      simp +decide [enrichFilter, dedup, dedupAux, addMetadata, rawFive, recFive,
        normalize_arabic, spaceStage, lexStage, pyStrip, pyWordCount,
        pyWordCountAux, replaceRuns, collapseAux, isPySpace, isDiacritic,
        mapAlef, mapYa, mapWaw, mapHamzaYa, mapTa, isAlefVariant, isPunctBlock,
        MIN_WORD_COUNT, MAX_WORD_COUNT, text_complexity, compute_quality_score,
        lm_perplexity_score]
      norm_num [max_def]
    rw [hev]
    exact List.mem_singleton_self _)

/-- C4: for fixed input, seed and optional-component availability, the
pipeline and split are a pure function of those arguments — two runs give
identical records, order and split assignment; in particular the outcome does
not depend on the machine's CPU count (which only sets `num_proc`). -/
theorem C4_determinism (lm : Option Scorer) (embedAvail : Bool)
    (sim : List Char → Scorer) (sh : List Char → Finset (List Char))
    (tok : List Char → List Nat) (seed : Nat) (raw : List RawRecord)
    (cpu₁ cpu₂ : Nat) :
    runMain lm embedAvail sim sh tok seed cpu₁ raw =
      runMain lm embedAvail sim sh tok seed cpu₂ raw := rfl

/-- C8 counterexample: on empty raw input `main` logs "No data found.
Aborting." and plainly returns, so the process exit status is `0` — not the
non-zero status the claim requires. -/
theorem C8_counterexample :
    runMain none false simConst (shingles 3) tokNat SEED 1 [] =
      MainOutcome.aborted "No data found. Aborting." 0 ∧
    (runMain none false simConst (shingles 3) tokNat SEED 1 []).exitStatus = 0 :=
  ⟨rfl, rfl⟩

/-- C8 (amended): if the raw input is empty, or the curated set is empty, the
run stops before any later stage with a diagnostic distinguishing "no raw
input" from "all records filtered/deduped away", but with exit status `0`
(`main` returns normally instead of exiting non-zero). -/
theorem C8_empty_abort (lm : Option Scorer) (embedAvail : Bool)
    (sim : List Char → Scorer) (sh : List Char → Finset (List Char))
    (tok : List Char → List Nat) (seed cpu : Nat) (raw : List RawRecord) :
    (raw = [] → runMain lm embedAvail sim sh tok seed cpu raw =
        MainOutcome.aborted "No data found. Aborting." 0) ∧
    (raw ≠ [] → curate_pipeline lm embedAvail sim sh raw = [] →
        runMain lm embedAvail sim sh tok seed cpu raw =
          MainOutcome.aborted "No data left after curation. Aborting." 0) := by
  constructor
  · rintro rfl; rfl
  · intro hraw hcur
    simp [runMain, hraw, hcur]

/-- Witness for C8 (amended): empty raw input aborts at ingestion; a one-word
input is filtered away and aborts after curation. -/
theorem C8_witness :
    runMain none true simConst (shingles 3) tokNat SEED 1 [] =
      MainOutcome.aborted "No data found. Aborting." 0 ∧
    runMain none false simConst (shingles 3) tokNat SEED 1 [⟨"hi".data, "s"⟩] =
      MainOutcome.aborted "No data left after curation. Aborting." 0 :=
  ⟨(C8_empty_abort none true simConst (shingles 3) tokNat SEED 1 []).1 rfl,
   (C8_empty_abort none false simConst (shingles 3) tokNat SEED 1
      [⟨"hi".data, "s"⟩]).2 (by decide) (by
        simp only [curate_pipeline]
        rw [augment_stage_unavail, dedup_idem]
        simp +decide [enrichFilter, dedup, dedupAux, normalize_arabic,
          spaceStage, lexStage, pyStrip, pyWordCount, pyWordCountAux,
          replaceRuns, collapseAux, isPySpace, isDiacritic, mapAlef, mapYa,
          mapWaw, mapHamzaYa, mapTa, isAlefVariant, isPunctBlock,
          MIN_WORD_COUNT, MAX_WORD_COUNT])⟩

/-! ## Normalization idempotence (C9) -/

theorem map_id_of {α : Type} (f : α → α) :
    ∀ (l : List α), (∀ c ∈ l, f c = c) → l.map f = l := by
  intro l
  induction l with
  | nil => intro _; rfl
  | cons c cs ih =>
    intro h
    simp only [List.map_cons]
    rw [h c (List.mem_cons_self _ _),
      ih (fun x hx => h x (List.mem_cons_of_mem _ hx))]

theorem mem_collapseAux (p : Char → Bool) (rep : Char) :
    ∀ (l : List Char) (b : Bool) (c : Char), c ∈ collapseAux p rep b l →
      c = rep ∨ (c ∈ l ∧ p c = false) := by
  intro l
  induction l with
  | nil => intro b c h; simp [collapseAux] at h
  | cons d cs ih =>
    intro b c h
    by_cases hpd : p d = true
    · cases b with
      | true =>
        rw [show collapseAux p rep true (d :: cs) = collapseAux p rep true cs
          from by simp [collapseAux, hpd]] at h
        rcases ih true c h with h' | ⟨h1, h2⟩
        · exact Or.inl h'
        · exact Or.inr ⟨List.mem_cons_of_mem _ h1, h2⟩
      | false =>
        rw [show collapseAux p rep false (d :: cs) =
            rep :: collapseAux p rep true cs
          from by simp [collapseAux, hpd]] at h
        rcases List.mem_cons.mp h with rfl | h'
        · exact Or.inl rfl
        · rcases ih true c h' with h'' | ⟨h1, h2⟩
          · exact Or.inl h''
          · exact Or.inr ⟨List.mem_cons_of_mem _ h1, h2⟩
    · rw [show collapseAux p rep b (d :: cs) =
          d :: collapseAux p rep false cs
        from by simp [collapseAux, hpd]] at h
      rcases List.mem_cons.mp h with rfl | h'
      · exact Or.inr ⟨List.mem_cons_self _ _, by simpa using hpd⟩
      · rcases ih false c h' with h'' | ⟨h1, h2⟩
        · exact Or.inl h''
        · exact Or.inr ⟨List.mem_cons_of_mem _ h1, h2⟩

theorem head_collapseAux (p : Char → Bool) (rep : Char) :
    ∀ (l : List Char) (c : Char),
      (collapseAux p rep true l).head? = some c → p c = false := by
  intro l
  induction l with
  | nil => intro c h; simp [collapseAux] at h
  | cons d cs ih =>
    intro c h
    by_cases hpd : p d = true
    · rw [show collapseAux p rep true (d :: cs) = collapseAux p rep true cs
        from by simp [collapseAux, hpd]] at h
      exact ih c h
    · rw [show collapseAux p rep true (d :: cs) =
          d :: collapseAux p rep false cs
        from by simp [collapseAux, hpd]] at h
      simp only [List.head?_cons, Option.some.injEq] at h
      subst h
      simpa using hpd

theorem chain'_collapseAux (p : Char → Bool) (rep : Char) :
    ∀ (l : List Char) (b : Bool),
      List.Chain' (fun a b => ¬(p a = true ∧ p b = true))
        (collapseAux p rep b l) := by
  intro l
  induction l with
  | nil =>
    intro b
    rw [show collapseAux p rep b [] = [] from rfl]
    exact List.chain'_nil
  | cons d cs ih =>
    intro b
    by_cases hpd : p d = true
    · cases b with
      | true =>
        rw [show collapseAux p rep true (d :: cs) = collapseAux p rep true cs
          from by simp [collapseAux, hpd]]
        exact ih true
      | false =>
        rw [show collapseAux p rep false (d :: cs) =
            rep :: collapseAux p rep true cs
          from by simp [collapseAux, hpd]]
        rw [List.chain'_cons']
        refine ⟨?_, ih true⟩
        intro y hy hcon
        have := head_collapseAux p rep cs y hy
        rw [this] at hcon
        exact absurd hcon.2 (by simp)
    · rw [show collapseAux p rep b (d :: cs) =
          d :: collapseAux p rep false cs
        from by simp [collapseAux, hpd]]
      rw [List.chain'_cons']
      refine ⟨?_, ih false⟩
      intro y hy hcon
      exact hpd hcon.1

theorem collapseAux_id (p : Char → Bool) (rep : Char) :
    ∀ (l : List Char) (b : Bool),
      (∀ c ∈ l, p c = true → c = rep) →
      List.Chain' (fun a b => ¬(p a = true ∧ p b = true)) l →
      (b = true → ∀ c, l.head? = some c → p c = false) →
      collapseAux p rep b l = l := by
  intro l
  induction l with
  | nil => intro b _ _ _; rfl
  | cons d cs ih =>
    intro b hall hchain hb
    by_cases hpd : p d = true
    · cases b with
      | true =>
        have := hb rfl d rfl
        rw [this] at hpd
        cases hpd
      | false =>
        have hd : d = rep := hall d (List.mem_cons_self _ _) hpd
        have hchain' := List.chain'_cons'.mp hchain
        rw [show collapseAux p rep false (d :: cs) =
            rep :: collapseAux p rep true cs
          from by simp [collapseAux, hpd]]
        rw [ih true (fun c hc => hall c (List.mem_cons_of_mem _ hc)) hchain'.2
          ?_, hd]
        intro _ c hc
        have hdy := hchain'.1 c hc
        cases hpc : p c with
        | false => rfl
        | true => exact absurd ⟨hpd, hpc⟩ hdy
    · rw [show collapseAux p rep b (d :: cs) =
          d :: collapseAux p rep false cs
        from by simp [collapseAux, hpd]]
      rw [ih false (fun c hc => hall c (List.mem_cons_of_mem _ hc))
        (List.chain'_cons'.mp hchain).2 (by intro hh; cases hh)]

theorem collapseAux_id_none (p : Char → Bool) (rep : Char) :
    ∀ (l : List Char), (∀ c ∈ l, p c = false) →
      collapseAux p rep false l = l := by
  intro l
  induction l with
  | nil => intro _; rfl
  | cons d cs ih =>
    intro h
    have hd := h d (List.mem_cons_self _ _)
    rw [show collapseAux p rep false (d :: cs) =
        d :: collapseAux p rep false cs
      from by simp [collapseAux, hd]]
    rw [ih (fun c hc => h c (List.mem_cons_of_mem _ hc))]

theorem head?_dropWhile (p : Char → Bool) :
    ∀ (l : List Char) (c : Char),
      (l.dropWhile p).head? = some c → p c = false := by
  intro l
  induction l with
  | nil => intro c h; simp at h
  | cons d cs ih =>
    intro c h
    by_cases hpd : p d = true
    · rw [List.dropWhile_cons_of_pos hpd] at h
      exact ih c h
    · rw [List.dropWhile_cons_of_neg hpd] at h
      simp only [List.head?_cons, Option.some.injEq] at h
      subst h
      simpa using hpd

theorem dropWhile_eq_self_of_head (p : Char → Bool) (l : List Char)
    (h : ∀ c, l.head? = some c → p c = false) : l.dropWhile p = l := by
  cases l with
  | nil => rfl
  | cons d cs =>
    have := h d rfl
    rw [List.dropWhile_cons_of_neg (by simp [this])]

theorem getLast?_of_suffix {α : Type} {l₁ l₂ : List α} (h : l₁ <:+ l₂)
    (hne : l₁ ≠ []) : l₁.getLast? = l₂.getLast? := by
  rcases h with ⟨t, rfl⟩
  exact (List.getLast?_append_of_ne_nil t hne).symm

theorem mem_pyStrip (l : List Char) (c : Char) (h : c ∈ pyStrip l) :
    c ∈ l := by
  unfold pyStrip at h
  rw [List.mem_reverse] at h
  have h1 := (List.dropWhile_sublist _).subset h
  rw [List.mem_reverse] at h1
  exact (List.dropWhile_sublist _).subset h1

theorem noTwoSpaces_pyStrip (l : List Char) (h : NoTwoSpaces l) :
    NoTwoSpaces (pyStrip l) := by
  unfold NoTwoSpaces at h ⊢
  unfold pyStrip
  have h1 := h.suffix (List.dropWhile_suffix (p := isPySpace))
  have h2 : List.Chain' (fun a b => ¬(isPySpace a = true ∧ isPySpace b = true))
      (l.dropWhile isPySpace).reverse :=
    List.chain'_reverse.mpr (h1.imp (fun a b hab hc => hab ⟨hc.2, hc.1⟩))
  have h3 := h2.suffix (List.dropWhile_suffix (p := isPySpace))
  exact List.chain'_reverse.mpr (h3.imp (fun a b hab hc => hab ⟨hc.2, hc.1⟩))

theorem head?_pyStrip (l : List Char) (c : Char)
    (h : (pyStrip l).head? = some c) : isPySpace c = false := by
  unfold pyStrip at h
  rw [List.head?_reverse] at h
  by_cases hB : (l.dropWhile isPySpace).reverse.dropWhile isPySpace = []
  · rw [hB] at h
    simp at h
  · rw [getLast?_of_suffix (List.dropWhile_suffix isPySpace) hB,
      List.getLast?_reverse] at h
    exact head?_dropWhile isPySpace l c h

theorem getLast?_pyStrip (l : List Char) (c : Char)
    (h : (pyStrip l).getLast? = some c) : isPySpace c = false := by
  unfold pyStrip at h
  rw [List.getLast?_reverse] at h
  exact head?_dropWhile isPySpace _ c h

theorem pyStrip_eq_self (l : List Char)
    (hh : ∀ c, l.head? = some c → isPySpace c = false)
    (hl : ∀ c, l.getLast? = some c → isPySpace c = false) : pyStrip l = l := by
  unfold pyStrip
  rw [dropWhile_eq_self_of_head isPySpace l hh]
  rw [dropWhile_eq_self_of_head isPySpace l.reverse (by
    intro c hc
    rw [List.head?_reverse] at hc
    exact hl c hc)]
  exact List.reverse_reverse l

theorem lexOk_chain (c : Char) (h : isDiacritic c = false) :
    lexOk (mapTa (mapHamzaYa (mapWaw (mapYa (mapAlef c))))) = true := by
  unfold mapAlef
  by_cases hv : isAlefVariant c = true
  · rw [if_pos hv]; decide
  · rw [if_neg hv]
    unfold mapYa
    by_cases hy : c = 'ى'
    · rw [if_pos hy]; decide
    · rw [if_neg hy]
      unfold mapWaw
      by_cases hw : c = 'ؤ'
      · rw [if_pos hw]; decide
      · rw [if_neg hw]
        unfold mapHamzaYa
        by_cases hx : c = 'ئ'
        · rw [if_pos hx]; decide
        · rw [if_neg hx]
          unfold mapTa
          by_cases ht : c = 'ة'
          · rw [if_pos ht]; decide
          · rw [if_neg ht]
            simp only [isAlefVariant, Bool.or_eq_true, beq_iff_eq, not_or] at hv
            simp [lexOk, h, bne_iff_ne, hv.1.1.1, hv.1.1.2, hv.1.2, hv.2,
              hy, hw, hx, ht]

theorem lexOk_lexStage (l : List Char) (c : Char) (hc : c ∈ lexStage l) :
    lexOk c = true := by
  unfold lexStage at hc
  simp only [List.map_map] at hc
  rcases List.mem_map.mp hc with ⟨c₀, hc₀, rfl⟩
  have hd : isDiacritic c₀ = false := by
    have := (List.mem_filter.mp hc₀).2
    simpa using this
  simpa [Function.comp] using lexOk_chain c₀ hd

theorem normChar_not_diacritic (c : Char) (h : normChar c = true) :
    isDiacritic c = false := by
  by_cases hd : isDiacritic c = true
  · simp [normChar, lexOk, hd] at h
  · simpa using hd

theorem normChar_not_punct (c : Char) (h : normChar c = true) :
    isPunctBlock c = false := by
  by_cases hp : isPunctBlock c = true
  · simp [normChar, hp] at h
  · simpa using hp

theorem normChar_space_eq (c : Char) (h : normChar c = true)
    (hws : isPySpace c = true) : c = ' ' := by
  by_cases hc : c = ' '
  · exact hc
  · exfalso
    simp [normChar, hws, hc] at h

theorem mapAlef_id (c : Char) (h : normChar c = true) : mapAlef c = c := by
  by_cases hv : isAlefVariant c = true
  · simp only [isAlefVariant, Bool.or_eq_true, beq_iff_eq] at hv
    rcases hv with ((h1 | h1) | h1) | h1 <;> subst h1
    · exact absurd h (by decide)
    · exact absurd h (by decide)
    · exact absurd h (by decide)
    · decide
  · simp [mapAlef, hv]

theorem mapYa_id (c : Char) (h : normChar c = true) : mapYa c = c := by
  by_cases hy : c = 'ى'
  · subst hy; exact absurd h (by decide)
  · simp [mapYa, hy]

theorem mapWaw_id (c : Char) (h : normChar c = true) : mapWaw c = c := by
  by_cases hy : c = 'ؤ'
  · subst hy; exact absurd h (by decide)
  · simp [mapWaw, hy]

theorem mapHamzaYa_id (c : Char) (h : normChar c = true) :
    mapHamzaYa c = c := by
  by_cases hy : c = 'ئ'
  · subst hy; exact absurd h (by decide)
  · simp [mapHamzaYa, hy]

theorem mapTa_id (c : Char) (h : normChar c = true) : mapTa c = c := by
  by_cases hy : c = 'ة'
  · subst hy; exact absurd h (by decide)
  · simp [mapTa, hy]

theorem lexStage_id (l : List Char) (h : ∀ c ∈ l, normChar c = true) :
    lexStage l = l := by
  unfold lexStage
  rw [List.filter_eq_self.mpr (fun c hc => by
    simp [normChar_not_diacritic c (h c hc)])]
  rw [map_id_of mapAlef l (fun c hc => mapAlef_id c (h c hc))]
  rw [map_id_of mapYa l (fun c hc => mapYa_id c (h c hc))]
  rw [map_id_of mapWaw l (fun c hc => mapWaw_id c (h c hc))]
  rw [map_id_of mapHamzaYa l (fun c hc => mapHamzaYa_id c (h c hc))]
  rw [map_id_of mapTa l (fun c hc => mapTa_id c (h c hc))]

theorem isNormalized_spaceStage (l : List Char)
    (h : ∀ c ∈ l, lexOk c = true) : isNormalized (spaceStage l) := by
  unfold spaceStage
  refine ⟨?_, ?_, ?_, ?_⟩
  · intro c hc
    have hc₈ := mem_pyStrip _ _ hc
    rcases mem_collapseAux isPySpace ' ' (replaceRuns isPunctBlock ' ' l)
        false c hc₈ with rfl | ⟨hc₇, hws⟩
    · decide
    · rcases mem_collapseAux isPunctBlock ' ' l false c hc₇ with
        rfl | ⟨hcl, hpunct⟩
      · decide
      · have hlex := h c hcl
        simp [normChar, hlex, hpunct, hws]
  · exact noTwoSpaces_pyStrip _
      (chain'_collapseAux isPySpace ' ' (replaceRuns isPunctBlock ' ' l) false)
  · intro c hc; exact head?_pyStrip _ _ hc
  · intro c hc; exact getLast?_pyStrip _ _ hc

theorem spaceStage_id (l : List Char) (h : isNormalized l) :
    spaceStage l = l := by
  obtain ⟨hchars, hchain, hhead, hlast⟩ := h
  unfold spaceStage
  have h₇ : replaceRuns isPunctBlock ' ' l = l :=
    collapseAux_id_none _ _ l (fun c hc => normChar_not_punct c (hchars c hc))
  rw [h₇]
  have h₈ : replaceRuns isPySpace ' ' l = l :=
    collapseAux_id isPySpace ' ' l false
      (fun c hc hws => normChar_space_eq c (hchars c hc) hws) hchain
      (by intro hh; cases hh)
  rw [h₈]
  exact pyStrip_eq_self l hhead hlast

theorem isNormalized_normalize (l : List Char) :
    isNormalized (normalize_arabic l) := by
  unfold normalize_arabic
  by_cases hl : l = []
  · rw [if_pos hl]
    exact ⟨by intro c hc; simp at hc, List.chain'_nil,
      by intro c hc; simp at hc, by intro c hc; simp at hc⟩
  · rw [if_neg hl]
    exact isNormalized_spaceStage _ (fun c hc => lexOk_lexStage l c hc)

theorem normalize_arabic_of_normalized (l : List Char) (h : isNormalized l) :
    normalize_arabic l = l := by
  unfold normalize_arabic
  by_cases hl : l = []
  · rw [if_pos hl, hl]
  · rw [if_neg hl, lexStage_id l h.1, spaceStage_id l h]

/-- C9: `normalize_arabic` is idempotent: renormalizing a normalized text
changes nothing. -/
theorem C9_normalize_idempotent (l : List Char) :
    normalize_arabic (normalize_arabic l) = normalize_arabic l :=
  normalize_arabic_of_normalized _ (isNormalized_normalize l)
